import Mathlib

/-!
Verification development for the ConOps reconciliation core.

Go strings are modelled as lists of runes (`List Char`), matching Go's
`for _, r := range s` iteration.  The helpers below embed the exact
`strings.*` / `unicode.*` operations the source uses; where a Go helper
consults full Unicode tables (`unicode.IsLetter`, `strings.ToLower`), the
model covers the Basic Latin and Latin-1 blocks, the range exercised by
every theorem in this file.
-/

abbrev Str := List Char

/-- Whitespace class of Go `unicode.IsSpace` restricted to Latin-1:
space, tab, newline, vertical tab, form feed, carriage return, NEL, NBSP. -/
def isGoSpace (c : Char) : Bool :=
  c.toNat = 32 || c.toNat = 9 || c.toNat = 10 || c.toNat = 11 ||
  c.toNat = 12 || c.toNat = 13 || c.toNat = 133 || c.toNat = 160

/-- `strings.TrimSpace`: drop leading whitespace. -/
def goTrimLeft (s : Str) : Str := s.dropWhile isGoSpace

/-- `strings.TrimSpace`: drop trailing whitespace. -/
def goTrimRight (s : Str) : Str := (s.reverse.dropWhile isGoSpace).reverse

/-- Go `strings.TrimSpace`. -/
def goTrimSpace (s : Str) : Str := goTrimLeft (goTrimRight s)

/-- Go `strings.Split(s, "\n")` (split on every newline, keeping empty fields). -/
def splitLines : Str → List Str
  | [] => [[]]
  | c :: rest =>
    if c = '\n' then [] :: splitLines rest
    else
      match splitLines rest with
      | [] => [[c]]
      | l :: ls => (c :: l) :: ls

/-- Split a string at the first occurrence of `sep`: the part before, and
(when `sep` occurs) the part after. -/
def breakChar (sep : Char) : Str → Str × Option Str
  | [] => ([], none)
  | c :: rest =>
    if c = sep then ([], some rest)
    else
      let r := breakChar sep rest
      (c :: r.1, r.2)

/-- Go `strings.SplitN(s, "|", 3)`: at most three fields, the last keeping
any remaining separators. -/
def splitN3Pipe (s : Str) : List Str :=
  match breakChar '|' s with
  | (a, none) => [a]
  | (a, some rest) =>
    match breakChar '|' rest with
    | (b, none) => [a, b]
    | (b, some rest2) => [a, b, rest2]

/-- Go `unicode.ToLower` (as used by `strings.ToLower`) on the Basic Latin
and Latin-1 blocks: maps A-Z and À-Þ (except ×) down by 32. -/
def goToLowerChar (c : Char) : Char :=
  let n := c.toNat
  if 65 ≤ n && n ≤ 90 then Char.ofNat (n + 32)
  else if 192 ≤ n && n ≤ 222 && n ≠ 215 then Char.ofNat (n + 32)
  else c

/-- Go `strings.ToLower` (Latin-1 fragment). -/
def goToLower (s : Str) : Str := s.map goToLowerChar

/-- Go `strings.HasPrefix s pat`. -/
def strStartsWith : Str → Str → Bool
  | _, [] => true
  | [], _ :: _ => false
  | c :: s, p :: ps => c = p && strStartsWith s ps

/-- Go `strings.Contains s pat`. -/
def strContainsSub (pat : Str) : Str → Bool
  | [] => strStartsWith [] pat
  | c :: rest => strStartsWith (c :: rest) pat || strContainsSub pat rest

/-! ## Compose runtime snapshot (src/unnamed/part_009, package compose)

`ProjectRuntimeState`, `IsHealthy`, `dockerStatusIsRunning` and
`SnapshotProjects` are embedded from the compose executor.  The `docker ps`
subprocess output is the function's input; the Go `map[string]…` is an
association list with first-match lookup and in-place store. -/

structure ProjectRuntimeState where
  ContainerCount : Nat
  RunningCount : Nat
  ExitedCount : Nat
  UnhealthyCount : Nat
deriving DecidableEq, Repr

/-- `ProjectRuntimeState.IsHealthy` (part_009): all running, none exited,
none unhealthy, and at least one container. -/
def ProjectRuntimeState.IsHealthy (s : ProjectRuntimeState) : Bool :=
  if s.ContainerCount = 0 then false
  else s.RunningCount == s.ContainerCount && s.ExitedCount == 0 && s.UnhealthyCount == 0

/-- `dockerStatusIsRunning` (part_009): the trimmed, lowercased status line
begins with "up ". -/
def dockerStatusIsRunning (status : Str) : Bool :=
  strStartsWith (goToLower (goTrimSpace status)) ("up ".data)

abbrev Snapshot := List (Str × ProjectRuntimeState)

/-- Go map read `snapshot[k]` inside `SnapshotProjects`. -/
def snapLookup (m : Snapshot) (k : Str) : Option ProjectRuntimeState :=
  (m.find? (fun e => e.1 == k)).map (fun e => e.2)

/-- Go map read with zero-value default, `state := snapshot[projectName]`. -/
def mapGetD (m : Snapshot) (k : Str) : ProjectRuntimeState :=
  (snapLookup m k).getD ⟨0, 0, 0, 0⟩

/-- Go map store `snapshot[k] = v`. -/
def mapPut (m : Snapshot) (k : Str) (v : ProjectRuntimeState) : Snapshot :=
  match m with
  | [] => [(k, v)]
  | e :: rest => if e.1 == k then (k, v) :: rest else e :: mapPut rest k v

/-- One iteration of the `SnapshotProjects` line loop (part_009). -/
def snapshotLine (snapshot : Snapshot) (line : Str) : Snapshot :=
  let line := goTrimSpace line
  if line = [] then snapshot
  else
    match splitN3Pipe line with
    | [p0, p1, p2] =>
      let projectName := goTrimSpace p0
      let oneOff := goTrimSpace p1
      let status := goTrimSpace p2
      if projectName = [] || goToLower oneOff = "true".data || oneOff = "1".data then
        snapshot
      else
        let state := mapGetD snapshot projectName
        let state1 : ProjectRuntimeState :=
          { ContainerCount := state.ContainerCount + 1
            RunningCount := state.RunningCount + (if dockerStatusIsRunning status then 1 else 0)
            ExitedCount := state.ExitedCount + (if dockerStatusIsRunning status then 0 else 1)
            UnhealthyCount := state.UnhealthyCount +
              (if strContainsSub "(unhealthy)".data (goToLower status) then 1 else 0) }
        mapPut snapshot projectName state1
    | _ => snapshot

/-- `ComposeExecutor.SnapshotProjects` (part_009), as a function of the
`docker ps` output it parses. -/
def snapshotProjects (output : Str) : Snapshot :=
  (splitLines (goTrimSpace output)).foldl snapshotLine []

/-! ### Snapshot invariants -/

/-- The per-entry invariant every snapshot entry satisfies. -/
def snapEntryOK (st : ProjectRuntimeState) : Prop :=
  st.ContainerCount = st.RunningCount + st.ExitedCount ∧ 1 ≤ st.ContainerCount

theorem snapLookup_mapPut (m : Snapshot) (k : Str) (v : ProjectRuntimeState) (q : Str) :
    snapLookup (mapPut m k v) q = if q = k then some v else snapLookup m q := by
  induction m with
  | nil =>
    by_cases h : q = k
    · have hb : (k == q) = true := beq_iff_eq.mpr h.symm
      simp [mapPut, snapLookup, List.find?, hb, h]
    · have hb : (k == q) = false := beq_eq_false_iff_ne.mpr (fun hh => h hh.symm)
      simp [mapPut, snapLookup, List.find?, hb, h]
  | cons e rest ih =>
    by_cases hek : e.1 = k
    · have hb : (e.1 == k) = true := beq_iff_eq.mpr hek
      by_cases hq : q = k
      · have hkq : (k == q) = true := beq_iff_eq.mpr hq.symm
        simp [mapPut, hb, snapLookup, List.find?, hkq, hq]
      · have hkq : (k == q) = false := beq_eq_false_iff_ne.mpr (fun hh => hq hh.symm)
        have heq : (e.1 == q) = false :=
          beq_eq_false_iff_ne.mpr (fun hh => hq (hh.symm.trans hek))
        simp [mapPut, hb, snapLookup, List.find?, hkq, hq, hek, heq]
    · have hb : (e.1 == k) = false := beq_eq_false_iff_ne.mpr hek
      by_cases heq : e.1 = q
      · have hbq : (e.1 == q) = true := beq_iff_eq.mpr heq
        have hq : ¬ q = k := fun hh => hek (heq.trans hh)
        simp [mapPut, hb, snapLookup, List.find?, hbq, hq]
      · have hbq : (e.1 == q) = false := beq_eq_false_iff_ne.mpr heq
        have step : mapPut (e :: rest) k v = e :: mapPut rest k v := by
          simp [mapPut, hb]
        rw [step]
        simp only [snapLookup, List.find?, hbq]
        simpa [snapLookup] using ih

theorem snapshotLine_preserves (acc : Snapshot) (line : Str)
    (h : ∀ k st, snapLookup acc k = some st → snapEntryOK st) :
    ∀ k st, snapLookup (snapshotLine acc line) k = some st → snapEntryOK st := by
  intro k st hl
  unfold snapshotLine at hl
  set t := goTrimSpace line with ht
  by_cases h0 : t = []
  · rw [if_pos h0] at hl; exact h k st hl
  · rw [if_neg h0] at hl
    cases hsplit : splitN3Pipe t with
    | nil => rw [hsplit] at hl; exact h k st hl
    | cons p0 ps =>
      cases ps with
      | nil => rw [hsplit] at hl; exact h k st hl
      | cons p1 ps2 =>
        cases ps2 with
        | nil => rw [hsplit] at hl; exact h k st hl
        | cons p2 ps3 =>
          cases ps3 with
          | cons p3 ps4 => rw [hsplit] at hl; exact h k st hl
          | nil =>
            rw [hsplit] at hl
            simp only at hl
            by_cases hskip : goTrimSpace p0 = [] ||
                goToLower (goTrimSpace p1) = "true".data || goTrimSpace p1 = "1".data
            · rw [if_pos hskip] at hl; exact h k st hl
            · rw [if_neg hskip] at hl
              rw [snapLookup_mapPut] at hl
              by_cases hk : k = goTrimSpace p0
              · rw [if_pos hk] at hl
                set old := mapGetD acc (goTrimSpace p0) with hold
                have hok : old.ContainerCount = old.RunningCount + old.ExitedCount := by
                  rcases hlook : snapLookup acc (goTrimSpace p0) with _ | v
                  · simp [hold, mapGetD, hlook]
                  · have := (h _ v hlook).1
                    simpa [hold, mapGetD, hlook] using this
                cases hl
                constructor
                · by_cases hr : dockerStatusIsRunning (goTrimSpace p2) <;>
                    simp [hr, hok] <;> omega
                · simp
              · rw [if_neg hk] at hl; exact h k st hl

theorem foldl_snapshotLine_preserves (ls : List Str) (acc : Snapshot)
    (h : ∀ k st, snapLookup acc k = some st → snapEntryOK st) :
    ∀ k st, snapLookup (ls.foldl snapshotLine acc) k = some st → snapEntryOK st := by
  induction ls generalizing acc with
  | nil => exact h
  | cons l rest ih => exact ih _ (snapshotLine_preserves acc l h)

theorem snapshotProjects_entryOK (out : Str) :
    ∀ k st, snapLookup (snapshotProjects out) k = some st → snapEntryOK st := by
  unfold snapshotProjects
  refine foldl_snapshotLine_preserves _ _ ?_
  intro k st h
  simp [snapLookup] at h

/-! ## Claim C10 -/

/-- C10: in every map returned by SnapshotProjects, each ProjectRuntimeState
satisfies ContainerCount = RunningCount + ExitedCount with ContainerCount ≥ 1,
because every counted container whose status line does not begin with "Up "
is classified as exited; consequently the exited-count conjunct of IsHealthy
is implied by running_count = container_count. -/
theorem c10_snapshot_counts (out : Str) (p : Str) (st : ProjectRuntimeState)
    (h : snapLookup (snapshotProjects out) p = some st) :
    st.ContainerCount = st.RunningCount + st.ExitedCount ∧
    1 ≤ st.ContainerCount ∧
    (st.RunningCount = st.ContainerCount → st.ExitedCount = 0) ∧
    st.IsHealthy = (st.RunningCount == st.ContainerCount && st.UnhealthyCount == 0) := by
  obtain ⟨hsum, hpos⟩ := snapshotProjects_entryOK out p st h
  refine ⟨hsum, hpos, fun hr => by omega, ?_⟩
  unfold ProjectRuntimeState.IsHealthy
  rw [if_neg (by omega)]
  by_cases hre : st.RunningCount = st.ContainerCount
  · have he : st.ExitedCount = 0 := by omega
    simp [hre, he]
  · have hb : (st.RunningCount == st.ContainerCount) = false :=
      beq_eq_false_iff_ne.mpr hre
    simp [hb]

theorem c10_snapshot_counts_witness :
    snapLookup (snapshotProjects
        ("web|false|Up 3 seconds\nweb|False|Exited (1) 2 hours ago".data))
      ("web".data) = some ⟨2, 1, 1, 0⟩ ∧
    ((2 : Nat) = 1 + 1 ∧ (1 : Nat) ≤ 2 ∧ ((1 : Nat) = 2 → (1 : Nat) = 0) ∧
      (ProjectRuntimeState.mk 2 1 1 0).IsHealthy = ((1 : Nat) == 2 && (0 : Nat) == 0)) :=
  ⟨by decide,
    c10_snapshot_counts
      ("web|false|Up 3 seconds\nweb|False|Exited (1) 2 hours ago".data)
      ("web".data) ⟨2, 1, 1, 0⟩ (by decide)⟩

/-! ## Project-name derivation (src/unnamed/part_009, `composeProjectName`) -/

/-- Go `unicode.IsLetter` on the Basic Latin and Latin-1 blocks (the range
exercised by the theorems below): A-Z, a-z, ª, µ, º, À-Ö, Ø-ö, ø-ÿ. -/
def isGoLetter (c : Char) : Bool :=
  let n := c.toNat
  (65 ≤ n && n ≤ 90) || (97 ≤ n && n ≤ 122) || n = 170 || n = 181 || n = 186 ||
  (192 ≤ n && n ≤ 214) || (216 ≤ n && n ≤ 246) || (248 ≤ n && n ≤ 255)

/-- Go `unicode.IsDigit` on Latin-1 (which has no non-ASCII decimal digits). -/
def isGoDigit (c : Char) : Bool :=
  48 ≤ c.toNat && c.toNat ≤ 57

/-- The rune loop of `composeProjectName` with its `lastDash` state: keep
letters, digits, dash and underscore; collapse any other run to one dash. -/
def projectNameLoop : Str → Bool → Str
  | [], _ => []
  | c :: rest, lastDash =>
    if isGoLetter c || isGoDigit c then c :: projectNameLoop rest false
    else if c = '-' || c = '_' then c :: projectNameLoop rest false
    else if lastDash then projectNameLoop rest lastDash
    else '-' :: projectNameLoop rest true

def isDashUnderscore (c : Char) : Bool := c = '-' || c = '_'

/-- Go `strings.Trim(s, "-_")`. -/
def trimDashUnderscore (s : Str) : Str :=
  ((s.dropWhile isDashUnderscore).reverse.dropWhile isDashUnderscore).reverse

/-- `startsWithAlphaNum` (part_009): whether the first rune is a letter or digit. -/
def startsWithAlphaNum : Str → Bool
  | [] => false
  | c :: _ => isGoLetter c || isGoDigit c

/-- UTF-8 encoded size of one rune. -/
def utf8CharSize (c : Char) : Nat :=
  if c.toNat < 128 then 1 else if c.toNat < 2048 then 2
  else if c.toNat < 65536 then 3 else 4

/-- Go `len(s)`: UTF-8 byte length. -/
def utf8Len (s : Str) : Nat := (s.map utf8CharSize).sum

/-- Go `s[:n]` byte slicing, modelled as the longest whole-rune prefix of
byte size at most `n` (identical whenever the cut does not split a rune,
in particular on ASCII strings). -/
def takeBytes (n : Nat) : Str → Str
  | [] => []
  | c :: rest =>
    if utf8CharSize c ≤ n then c :: takeBytes (n - utf8CharSize c) rest else []

/-- `composeProjectName` (part_009): deterministic compose project name for
an app id. -/
def composeProjectName (appID : Str) : Str :=
  let fallback := "conops-app".data
  let raw := goToLower (goTrimSpace appID)
  if raw = [] then fallback
  else
    let built := projectNameLoop raw false
    let project0 := trimDashUnderscore built
    let project1 := if project0 = [] then fallback else project0
    let project2 := if startsWithAlphaNum project1 then project1 else ("app-".data ++ project1)
    let project3 :=
      if utf8Len project2 > 63 then trimDashUnderscore (takeBytes 63 project2) else project2
    if project3 = [] then fallback else project3

/-- `ProjectNameForApp` (part_009). -/
def ProjectNameForApp (appID : Str) : Str := composeProjectName appID

/-! ### Character classes and support lemmas for the project-name claims -/

/-- A character in `[a-z0-9]`. -/
def isLowerAlnum (c : Char) : Bool :=
  (97 ≤ c.toNat && c.toNat ≤ 122) || isGoDigit c

/-- A character in `[a-z0-9-_]`. -/
def isProjectChar (c : Char) : Bool :=
  isLowerAlnum c || c = '-' || c = '_'

theorem toNat_charOfNat (n : Nat) (h : Nat.isValidChar n) : (Char.ofNat n).toNat = n := by
  rw [Char.ofNat, dif_pos h]
  rfl

theorem goToLowerChar_of_ascii (c : Char) (h : c.toNat < 128) :
    (goToLowerChar c).toNat < 128 ∧
    ¬ (65 ≤ (goToLowerChar c).toNat ∧ (goToLowerChar c).toNat ≤ 90) := by
  by_cases h1 : 65 ≤ c.toNat ∧ c.toNat ≤ 90
  · have hb : (decide (65 ≤ c.toNat) && decide (c.toNat ≤ 90)) = true := by
      rw [decide_eq_true h1.1, decide_eq_true h1.2]
      rfl
    have hv : Nat.isValidChar (c.toNat + 32) := Or.inl (by omega)
    have : goToLowerChar c = Char.ofNat (c.toNat + 32) := by
      simp only [goToLowerChar]
      rw [if_pos hb]
    rw [this, toNat_charOfNat _ hv]
    omega
  · have hb : (decide (65 ≤ c.toNat) && decide (c.toNat ≤ 90)) = false := by
      rcases not_and_or.mp h1 with hx | hx
      · rw [decide_eq_false hx]; rfl
      · rw [decide_eq_false hx, Bool.and_false]
    have hb2 : (decide (192 ≤ c.toNat) && decide (c.toNat ≤ 222) && decide (c.toNat ≠ 215)) = false := by
      rw [decide_eq_false (by omega : ¬ 192 ≤ c.toNat)]
      rfl
    have : goToLowerChar c = c := by
      simp only [goToLowerChar]
      rw [if_neg (by simp [hb]),
        if_neg (by simp only [Bool.and_eq_true, decide_eq_true_eq]; omega)]
    rw [this]
    exact ⟨h, h1⟩

theorem mem_goTrimRight {s : Str} {c : Char} (h : c ∈ goTrimRight s) : c ∈ s := by
  have : goTrimRight s = s.rdropWhile isGoSpace := rfl
  rw [this] at h
  exact (List.rdropWhile_prefix isGoSpace s).sublist.subset h

theorem mem_goTrimSpace {s : Str} {c : Char} (h : c ∈ goTrimSpace s) : c ∈ s := by
  have h1 : c ∈ goTrimRight s :=
    (List.dropWhile_sublist isGoSpace).subset h
  exact mem_goTrimRight h1

theorem projectNameLoop_chars (s : Str) (b : Bool)
    (hs : ∀ c ∈ s, c.toNat < 128 ∧ ¬ (65 ≤ c.toNat ∧ c.toNat ≤ 90)) :
    ∀ c ∈ projectNameLoop s b, isProjectChar c = true := by
  induction s generalizing b with
  | nil => intro c hc; simp [projectNameLoop] at hc
  | cons d rest ih =>
    intro c hc
    obtain ⟨hd, hdu⟩ := hs d (by simp)
    have hrest : ∀ x ∈ rest, x.toNat < 128 ∧ ¬ (65 ≤ x.toNat ∧ x.toNat ≤ 90) :=
      fun x hx => hs x (by simp [hx])
    unfold projectNameLoop at hc
    by_cases hk : (isGoLetter d || isGoDigit d) = true
    · rw [if_pos hk] at hc
      rcases List.mem_cons.mp hc with rfl | hc2
      · have : isLowerAlnum c = true := by
          simp only [Bool.or_eq_true] at hk
          rcases hk with hl | hdig
          · simp only [isGoLetter, decide_eq_true_eq, Bool.or_eq_true, Bool.and_eq_true] at hl
            simp only [isLowerAlnum, isGoDigit, decide_eq_true_eq, Bool.or_eq_true,
              Bool.and_eq_true]
            omega
          · simp [isLowerAlnum, hdig]
        unfold isProjectChar
        simp [this]
      · exact ih false hrest c hc2
    · rw [if_neg hk] at hc
      by_cases hdash : (d = '-' || d = '_') = true
      · rw [if_pos hdash] at hc
        rcases List.mem_cons.mp hc with rfl | hc2
        · simp only [Bool.or_eq_true, decide_eq_true_eq] at hdash
          unfold isProjectChar
          rcases hdash with hh | hh <;> simp [hh]
        · exact ih false hrest c hc2
      · rw [if_neg hdash] at hc
        by_cases hlast : b = true
        · rw [if_pos hlast] at hc
          exact ih b hrest c hc
        · rw [if_neg hlast] at hc
          rcases List.mem_cons.mp hc with rfl | hc2
          · decide
          · exact ih true hrest c hc2

theorem trimDashUnderscore_eq_rdrop (s : Str) :
    trimDashUnderscore s = (s.dropWhile isDashUnderscore).rdropWhile isDashUnderscore := rfl

theorem mem_trimDashUnderscore {s : Str} {c : Char} (h : c ∈ trimDashUnderscore s) : c ∈ s := by
  rw [trimDashUnderscore_eq_rdrop] at h
  have h1 : c ∈ s.dropWhile isDashUnderscore :=
    (List.rdropWhile_prefix isDashUnderscore _).sublist.subset h
  exact (List.dropWhile_sublist isDashUnderscore).subset h1

theorem trimDashUnderscore_sublist (s : Str) : List.Sublist (trimDashUnderscore s) s :=
  ((List.rdropWhile_prefix isDashUnderscore _).sublist).trans
    (List.dropWhile_sublist isDashUnderscore)

theorem trimDashUnderscore_head {s : Str} {c : Char} {rest : Str}
    (h : trimDashUnderscore s = c :: rest) : isDashUnderscore c = false := by
  rw [trimDashUnderscore_eq_rdrop] at h
  obtain ⟨t, ht⟩ := List.rdropWhile_prefix isDashUnderscore (s.dropWhile isDashUnderscore)
  rw [h] at ht
  have hne : s.dropWhile isDashUnderscore ≠ [] := by
    intro hnil
    rw [hnil] at ht
    simp at ht
  have := List.head_dropWhile_not isDashUnderscore s hne
  have hhead : (s.dropWhile isDashUnderscore).head hne = c := by
    have : s.dropWhile isDashUnderscore = c :: (rest ++ t) := by
      rw [← ht]; simp
    simp [this]
  rw [hhead] at this
  exact this

theorem utf8CharSize_pos (c : Char) : 1 ≤ utf8CharSize c := by
  unfold utf8CharSize
  split <;> try omega
  split <;> try omega
  split <;> omega

theorem length_le_utf8Len (s : Str) : s.length ≤ utf8Len s := by
  induction s with
  | nil => simp [utf8Len]
  | cons c rest ih =>
    have := utf8CharSize_pos c
    simp only [utf8Len, List.map_cons, List.sum_cons, List.length_cons]
    simp only [utf8Len] at ih
    omega

theorem utf8Len_takeBytes_le (n : Nat) (s : Str) : utf8Len (takeBytes n s) ≤ n := by
  induction s generalizing n with
  | nil => simp [takeBytes, utf8Len]
  | cons c rest ih =>
    unfold takeBytes
    by_cases hc : utf8CharSize c ≤ n
    · rw [if_pos hc]
      have := ih (n - utf8CharSize c)
      simp only [utf8Len, List.map_cons, List.sum_cons]
      simp only [utf8Len] at this
      omega
    · rw [if_neg hc]
      simp [utf8Len]

theorem mem_takeBytes {n : Nat} {s : Str} {c : Char} (h : c ∈ takeBytes n s) : c ∈ s := by
  induction s generalizing n with
  | nil => simp [takeBytes] at h
  | cons d rest ih =>
    unfold takeBytes at h
    by_cases hc : utf8CharSize d ≤ n
    · rw [if_pos hc] at h
      rcases List.mem_cons.mp h with rfl | h2
      · simp
      · simp [ih h2]
    · rw [if_neg hc] at h
      simp at h

theorem utf8Len_sublist {s t : Str} (h : List.Sublist s t) : utf8Len s ≤ utf8Len t := by
  induction h with
  | slnil => exact le_refl _
  | cons a _ ih =>
    simp only [utf8Len, List.map_cons, List.sum_cons] at ih ⊢
    omega
  | cons₂ a _ ih =>
    simp only [utf8Len, List.map_cons, List.sum_cons] at ih ⊢
    omega

theorem lowerAlnum_startsWith {c : Char} (h : isLowerAlnum c = true) :
    (isGoLetter c || isGoDigit c) = true := by
  simp only [isLowerAlnum, Bool.or_eq_true, Bool.and_eq_true, decide_eq_true_eq] at h
  simp only [isGoLetter, isGoDigit, Bool.or_eq_true, Bool.and_eq_true, decide_eq_true_eq]
  rcases h with h | h
  · omega
  · simp only [isGoDigit, Bool.and_eq_true, decide_eq_true_eq] at h
    omega

theorem projectChar_not_dash {c : Char} (h1 : isProjectChar c = true)
    (h2 : isDashUnderscore c = false) : isLowerAlnum c = true := by
  simp only [isProjectChar, Bool.or_eq_true, decide_eq_true_eq] at h1
  simp only [isDashUnderscore, Bool.or_eq_false_iff, decide_eq_false_iff_not] at h2
  rcases h1 with (h | h) | h
  · exact h
  · exact absurd h h2.1
  · exact absurd h h2.2

/-- The property bundle of a well-formed project name: at most 63 UTF-8
bytes, non-empty, begins with `[a-z0-9]`, contains only `[a-z0-9-_]`. -/
def goodProjectName (s : Str) : Prop :=
  utf8Len s ≤ 63 ∧ s ≠ [] ∧ isLowerAlnum (s.headD 'a') = true ∧
    ∀ c ∈ s, isProjectChar c = true

theorem goodProjectName_fallback : goodProjectName ("conops-app".data) := by
  refine ⟨by decide, by decide, by decide, by decide⟩

theorem trimmed_head_lowerAlnum {s p : Str}
    (hp : trimDashUnderscore s = p)
    (hchars : ∀ c ∈ p, isProjectChar c = true)
    (hne : p ≠ []) : isLowerAlnum (p.headD 'a') = true := by
  cases hcons : p with
  | nil => exact absurd hcons hne
  | cons c rest =>
    have hdash : isDashUnderscore c = false :=
      trimDashUnderscore_head (by rw [hp, hcons])
    have hc : isProjectChar c = true := hchars c (by rw [hcons]; simp)
    simpa using projectChar_not_dash hc hdash

theorem projectStages (p1 : Str)
    (hchars : ∀ c ∈ p1, isProjectChar c = true)
    (hne : p1 ≠ [])
    (hhead : isLowerAlnum (p1.headD 'a') = true) :
    goodProjectName
      (let p2 := if startsWithAlphaNum p1 then p1 else ("app-".data ++ p1)
       let p3 := if utf8Len p2 > 63 then trimDashUnderscore (takeBytes 63 p2) else p2
       if p3 = [] then "conops-app".data else p3) := by
  have hstart : startsWithAlphaNum p1 = true := by
    cases hcons : p1 with
    | nil => exact absurd hcons hne
    | cons c rest =>
      have hla : isLowerAlnum c = true := by
        have := hhead
        rw [hcons] at this
        simpa using this
      unfold startsWithAlphaNum
      exact lowerAlnum_startsWith hla
  show goodProjectName _
  dsimp only
  rw [if_pos hstart]
  by_cases hlen : utf8Len p1 > 63
  · rw [if_pos hlen]
    set q := trimDashUnderscore (takeBytes 63 p1) with hq
    have hqchars : ∀ c ∈ q, isProjectChar c = true := by
      intro c hc
      exact hchars c (mem_takeBytes (mem_trimDashUnderscore hc))
    have hqlen : utf8Len q ≤ 63 := by
      have h1 : utf8Len q ≤ utf8Len (takeBytes 63 p1) :=
        utf8Len_sublist (by rw [hq]; exact trimDashUnderscore_sublist _)
      have h2 := utf8Len_takeBytes_le 63 p1
      omega
    by_cases hqe : q = []
    · rw [if_pos hqe]
      exact goodProjectName_fallback
    · rw [if_neg hqe]
      exact ⟨hqlen, hqe, trimmed_head_lowerAlnum hq.symm hqchars hqe, hqchars⟩
  · rw [if_neg hlen, if_neg hne]
    exact ⟨by omega, hne, hhead, hchars⟩

theorem composeProjectName_good (id : Str) (h : ∀ c ∈ id, c.toNat < 128) :
    goodProjectName (composeProjectName id) := by
  unfold composeProjectName
  have hrawc : ∀ c ∈ goToLower (goTrimSpace id),
      c.toNat < 128 ∧ ¬ (65 ≤ c.toNat ∧ c.toNat ≤ 90) := by
    intro c hc
    obtain ⟨d, hd, rfl⟩ := List.mem_map.mp hc
    exact goToLowerChar_of_ascii d (h d (mem_goTrimSpace hd))
  by_cases h0 : goToLower (goTrimSpace id) = []
  · rw [if_pos h0]
    exact goodProjectName_fallback
  · rw [if_neg h0]
    have hp0chars : ∀ c ∈ trimDashUnderscore (projectNameLoop (goToLower (goTrimSpace id)) false),
        isProjectChar c = true := by
      intro c hc
      exact projectNameLoop_chars _ false hrawc c (mem_trimDashUnderscore hc)
    by_cases hz : trimDashUnderscore (projectNameLoop (goToLower (goTrimSpace id)) false) = []
    · have := projectStages ("conops-app".data) (by decide) (by decide) (by decide)
      simpa [hz] using this
    · have hhead := trimmed_head_lowerAlnum rfl hp0chars hz
      have := projectStages _ hp0chars hz hhead
      simpa [hz] using this

/-! ## Claim C8 -/

/-- C8 counterexample to the claim as stated: on the non-ASCII input "É"
(`strings.ToLower` gives "é" and `unicode.IsLetter` keeps it), the derived
project name is "é", which neither begins with a character in `[a-z0-9]` nor
contains only characters in `[a-z0-9-_]`. -/
theorem c8_project_name_counterexample :
    composeProjectName ("É".data) = "é".data ∧
    ¬ (isLowerAlnum ((composeProjectName ("É".data)).headD 'a') = true ∧
       ∀ c ∈ composeProjectName ("É".data), isProjectChar c = true) := by
  decide

/-- C8 (amended: for ASCII input ids — the guarantee as stated fails on
non-ASCII letters, which `unicode.IsLetter` keeps): the derived project name
is at most 63 bytes (hence at most 63 characters) long, is non-empty, begins
with a character in `[a-z0-9]`, contains only characters in `[a-z0-9-_]`,
and is deterministic (a pure function of the id alone). -/
theorem c8_project_name (id : Str) (h : ∀ c ∈ id, c.toNat < 128) :
    utf8Len (composeProjectName id) ≤ 63 ∧
    (composeProjectName id).length ≤ 63 ∧
    composeProjectName id ≠ [] ∧
    isLowerAlnum ((composeProjectName id).headD 'a') = true ∧
    (∀ c ∈ composeProjectName id, isProjectChar c = true) ∧
    (∀ id2 : Str, id = id2 → composeProjectName id = composeProjectName id2) := by
  obtain ⟨h1, h2, h3, h4⟩ := composeProjectName_good id h
  exact ⟨h1, le_trans (length_le_utf8Len _) h1, h2, h3, h4, fun id2 hid => by rw [hid]⟩

theorem c8_project_name_witness :
    (∀ c ∈ ("My App 42!".data : Str), c.toNat < 128) ∧
    (utf8Len (composeProjectName ("My App 42!".data)) ≤ 63 ∧
     (composeProjectName ("My App 42!".data)).length ≤ 63 ∧
     composeProjectName ("My App 42!".data) ≠ [] ∧
     isLowerAlnum ((composeProjectName ("My App 42!".data)).headD 'a') = true ∧
     (∀ c ∈ composeProjectName ("My App 42!".data), isProjectChar c = true) ∧
     (∀ id2 : Str, "My App 42!".data = id2 →
        composeProjectName ("My App 42!".data) = composeProjectName id2)) :=
  ⟨by decide, c8_project_name ("My App 42!".data) (by decide)⟩

/-! ## Reconciler drift detection (src/internal/controller/reconciler.go) -/

/-- `Reconciler.runtimeDriftReason` (reconciler.go): missing project or zero
containers give runtime_missing, then unhealthy, exited, not-running in that
order. -/
def runtimeDriftReason (appID : Str) (snapshot : Snapshot) : String :=
  let projectName := ProjectNameForApp appID
  match snapLookup snapshot projectName with
  | none => "runtime_missing"
  | some state =>
    if state.ContainerCount = 0 then "runtime_missing"
    else if state.UnhealthyCount > 0 then "runtime_unhealthy"
    else if state.ExitedCount > 0 then "runtime_exited"
    else if state.RunningCount < state.ContainerCount then "runtime_not_running"
    else ""

/-- The drift-reason priority exactly as the spec words it (claim C6):
project missing from the snapshot gives runtime_missing; otherwise
unhealthy_count > 0 gives runtime_unhealthy; otherwise exited_count > 0
gives runtime_exited; otherwise running_count < container_count gives
runtime_not_running; otherwise no drift. -/
def specDriftReason (appID : Str) (snapshot : Snapshot) : String :=
  match snapLookup snapshot (ProjectNameForApp appID) with
  | none => "runtime_missing"
  | some state =>
    if state.UnhealthyCount > 0 then "runtime_unhealthy"
    else if state.ExitedCount > 0 then "runtime_exited"
    else if state.RunningCount < state.ContainerCount then "runtime_not_running"
    else ""

/-- The drift-requeue decision of `reconcileOnce` (reconciler.go): an app is
requeued for runtime drift iff its status is synced, a snapshot is
available, and the drift reason is non-empty. -/
def reconcileDriftRequeue (status : String) (appID : Str) (snapshot : Option Snapshot) : Bool :=
  match snapshot with
  | none => false
  | some snap => status == "synced" && runtimeDriftReason appID snap != ""

/-! ## Claim C6 -/

/-- C6: for every app and every runtime snapshot actually produced by
SnapshotProjects, the reconciler's drift reason coincides with the priority
order stated by the spec (missing, unhealthy, exited, not-running), and a
synced app is requeued to pending exactly when that reason is non-empty.
(The code's extra `ContainerCount == 0 → runtime_missing` branch is dead on
real snapshots, whose entries always count at least one container.) -/
theorem c6_drift_requeue (out : Str) (appID : Str) (status : String) :
    runtimeDriftReason appID (snapshotProjects out) =
      specDriftReason appID (snapshotProjects out) ∧
    (reconcileDriftRequeue status appID (some (snapshotProjects out)) = true ↔
      status = "synced" ∧ specDriftReason appID (snapshotProjects out) ≠ "") := by
  have hmain : runtimeDriftReason appID (snapshotProjects out) =
      specDriftReason appID (snapshotProjects out) := by
    unfold runtimeDriftReason specDriftReason
    dsimp only
    cases hlook : snapLookup (snapshotProjects out) (ProjectNameForApp appID) with
    | none => rfl
    | some st =>
      have hok := snapshotProjects_entryOK out _ st hlook
      have hc0 : ¬ st.ContainerCount = 0 := by
        have := hok.2
        omega
      simp only
      rw [if_neg hc0]
  refine ⟨hmain, ?_⟩
  unfold reconcileDriftRequeue
  dsimp only
  rw [hmain]
  constructor
  · intro hb
    simp only [Bool.and_eq_true, bne_iff_ne, beq_iff_eq] at hb
    exact hb
  · intro hpair
    simp only [Bool.and_eq_true, bne_iff_ne, beq_iff_eq]
    exact hpair

/-! ## Deploy-key normalization (src/internal/repoauth/repoauth.go)

`strings.ReplaceAll` for the two-character patterns is embedded as a
leftmost, non-overlapping scan (`replace2`), and for the one-character
pattern as a character map (`replaceCR`). -/

/-- Go `strings.ReplaceAll(s, [a,b], [r])`: leftmost, non-overlapping. -/
def replace2 (a b r : Char) : Str → Str
  | [] => []
  | [c] => [c]
  | c :: d :: rest =>
    if c = a ∧ d = b then r :: replace2 a b r rest
    else c :: replace2 a b r (d :: rest)

/-- Go `strings.ReplaceAll(s, "\r", "\n")`. -/
def replaceCR (s : Str) : Str :=
  s.map (fun c => if c = '\r' then '\n' else c)

/-- Go `strings.ReplaceAll(s, "\r\n", "\n")`. -/
def replaceCRLF (s : Str) : Str := replace2 '\r' '\n' '\n' s

/-- Go `strings.ReplaceAll(s, "\\n", "\n")` (literal backslash-n). -/
def replaceLitNL (s : Str) : Str := replace2 '\\' 'n' '\n' s

/-- `NormalizeDeployKey` (repoauth.go): trim, CRLF/CR to LF, convert literal
backslash-n escapes when no real newline exists, trim again, and append one
trailing newline to a non-empty result. -/
def NormalizeDeployKey (value : Str) : Str :=
  let normalized := goTrimSpace value
  let normalized := replaceCR (replaceCRLF normalized)
  let normalized :=
    if strContainsSub ("\\n".data) normalized && !(strContainsSub ("\n".data) normalized) then
      replaceLitNL normalized
    else normalized
  let normalized := goTrimSpace normalized
  if normalized = [] then []
  else normalized ++ ['\n']

/-! ### Substring characterizations -/

theorem strStartsWith_iff (s pat : Str) :
    strStartsWith s pat = true ↔ ∃ suf, s = pat ++ suf := by
  induction pat generalizing s with
  | nil => simp [strStartsWith]
  | cons p ps ih =>
    cases s with
    | nil =>
      simp [strStartsWith]
    | cons c rest =>
      simp only [strStartsWith, Bool.and_eq_true, decide_eq_true_eq, ih]
      constructor
      · rintro ⟨rfl, suf, rfl⟩
        exact ⟨suf, rfl⟩
      · rintro ⟨suf, heq⟩
        injection heq with h1 h2
        exact ⟨h1, suf, h2⟩

theorem strContainsSub_iff (pat s : Str) :
    strContainsSub pat s = true ↔ ∃ pre suf, s = pre ++ pat ++ suf := by
  induction s with
  | nil =>
    show strStartsWith [] pat = true ↔ _
    rw [strStartsWith_iff]
    constructor
    · rintro ⟨suf, h⟩
      exact ⟨[], suf, by simpa using h⟩
    · rintro ⟨pre, suf, h⟩
      cases pre with
      | nil => exact ⟨suf, by simpa using h⟩
      | cons x xs => simp at h
  | cons c rest ih =>
    simp only [strContainsSub, Bool.or_eq_true, strStartsWith_iff, ih]
    constructor
    · rintro (⟨suf, h⟩ | ⟨pre, suf, h⟩)
      · exact ⟨[], suf, by simpa using h⟩
      · exact ⟨c :: pre, suf, by simp [h]⟩
    · rintro ⟨pre, suf, h⟩
      cases pre with
      | nil => exact Or.inl ⟨suf, by simpa using h⟩
      | cons x xs =>
        injection h with h1 h2
        exact Or.inr ⟨xs, suf, h2⟩

theorem strContainsSub_of_infix {pat u v : Str} (hpre : Str) (hsuf : Str)
    (h : u = hpre ++ v ++ hsuf) (hc : strContainsSub pat v = true) :
    strContainsSub pat u = true := by
  rw [strContainsSub_iff] at hc ⊢
  obtain ⟨pre, suf, rfl⟩ := hc
  exact ⟨hpre ++ pre, suf ++ hsuf, by simp [h]⟩

theorem goTrimSpace_infix (s : Str) :
    ∃ pre suf, s = pre ++ goTrimSpace s ++ suf := by
  obtain ⟨suf, hsu⟩ := List.rdropWhile_prefix isGoSpace s
  obtain ⟨pre, hpr⟩ := List.dropWhile_suffix (l := s.rdropWhile isGoSpace) isGoSpace
  refine ⟨pre, suf, ?_⟩
  have h2 : goTrimSpace s = (s.rdropWhile isGoSpace).dropWhile isGoSpace := rfl
  rw [h2, hpr, hsu]

/-! ### Properties of the replacement scans -/

theorem mem_replace2 {a b r : Char} {s : Str} {c : Char} (h : c ∈ replace2 a b r s) :
    c ∈ s ∨ c = r := by
  induction s using replace2.induct a b r with
  | case1 => simp [replace2] at h
  | case2 d =>
    simp only [replace2] at h
    simp at h
    simp [h]
  | case3 d e rest hde ih =>
    rw [replace2, if_pos hde] at h
    rcases List.mem_cons.mp h with rfl | h2
    · exact Or.inr rfl
    · rcases ih h2 with hm | hr
      · exact Or.inl (by simp [hm])
      · exact Or.inr hr
  | case4 d e rest hde ih =>
    rw [replace2, if_neg hde] at h
    rcases List.mem_cons.mp h with rfl | h2
    · exact Or.inl (by simp)
    · rcases ih h2 with hm | hr
      · exact Or.inl (by simp [List.mem_cons.mp hm])
      · exact Or.inr hr

theorem replace2_of_not_mem {a b r : Char} {s : Str} (h : a ∉ s) :
    replace2 a b r s = s := by
  induction s using replace2.induct a b r with
  | case1 => rfl
  | case2 d => rfl
  | case3 d e rest hde ih =>
    exact absurd (by simp [hde.1]) h
  | case4 d e rest hde ih =>
    rw [replace2, if_neg hde, ih (fun hm => h (by simp [List.mem_cons.mp hm]))]

theorem replace2_head {a b r : Char} (d : Char) (rest : Str) :
    (∃ t, replace2 a b r (d :: rest) = d :: t) ∨
    (∃ t, replace2 a b r (d :: rest) = r :: t) := by
  cases rest with
  | nil => exact Or.inl ⟨[], rfl⟩
  | cons e rest2 =>
    by_cases hde : d = a ∧ e = b
    · exact Or.inr ⟨replace2 a b r rest2, by rw [replace2, if_pos hde]⟩
    · exact Or.inl ⟨replace2 a b r (e :: rest2), by rw [replace2, if_neg hde]⟩

theorem notContains_replace2 {a b r : Char} (hra : r ≠ a) (hrb : r ≠ b) (s : Str) :
    strContainsSub [a, b] (replace2 a b r s) = false := by
  induction s using replace2.induct a b r with
  | case1 => rfl
  | case2 d =>
    show strContainsSub [a, b] [d] = false
    simp [strContainsSub, strStartsWith]
  | case3 d e rest hde ih =>
    rw [replace2, if_pos hde]
    simp only [strContainsSub, strStartsWith, Bool.or_eq_false_iff]
    refine ⟨?_, ih⟩
    simp only [Bool.and_eq_false_iff]
    left
    simpa using fun hc => hra hc
  | case4 d e rest hde ih =>
    rw [replace2, if_neg hde]
    simp only [strContainsSub, Bool.or_eq_false_iff]
    refine ⟨?_, ih⟩
    by_cases hda : d = a
    · have heb : ¬ e = b := fun hb => hde ⟨hda, hb⟩
      rcases replace2_head (a := a) (b := b) (r := r) e rest with ⟨t, ht⟩ | ⟨t, ht⟩
      · rw [ht]
        simp [strStartsWith, heb]
      · rw [ht]
        simp [strStartsWith, hrb]
    · rcases hhead : replace2 a b r (e :: rest) with _ | ⟨x, t⟩
      · simp [strStartsWith]
      · simp [strStartsWith, hda]

theorem not_mem_replaceCR (s : Str) : '\r' ∉ replaceCR s := by
  intro h
  obtain ⟨c, _, hc⟩ := List.mem_map.mp h
  by_cases hcr : c = '\r' <;> simp [hcr] at hc

theorem replaceCR_of_noCR {s : Str} (h : '\r' ∉ s) : replaceCR s = s := by
  unfold replaceCR
  conv_rhs => rw [← List.map_id s]
  refine List.map_congr_left ?_
  intro c hc
  have : ¬ c = '\r' := fun hcr => h (hcr ▸ hc)
  simp [this]

/-! ### Trimmed strings -/

/-- A string with no leading and no trailing Go whitespace. -/
def trimmedStr (s : Str) : Prop :=
  (∀ c, s.head? = some c → isGoSpace c = false) ∧
  (∀ c, s.getLast? = some c → isGoSpace c = false)

theorem goTrimLeft_of_head {s : Str} (h : ∀ c, s.head? = some c → isGoSpace c = false) :
    goTrimLeft s = s := by
  cases s with
  | nil => rfl
  | cons c t =>
    have hc := h c rfl
    simp [goTrimLeft, List.dropWhile_cons, hc]

theorem goTrimRight_of_last {s : Str} (h : ∀ c, s.getLast? = some c → isGoSpace c = false) :
    goTrimRight s = s := by
  show s.rdropWhile isGoSpace = s
  rw [List.rdropWhile_eq_self_iff]
  intro hl hsp
  have := h _ (List.getLast?_eq_getLast s hl)
  rw [this] at hsp
  exact Bool.noConfusion hsp

theorem goTrimSpace_of_trimmed {s : Str} (h : trimmedStr s) : goTrimSpace s = s := by
  unfold goTrimSpace
  rw [goTrimRight_of_last h.2, goTrimLeft_of_head h.1]

theorem trimmedStr_goTrimSpace (s : Str) : trimmedStr (goTrimSpace s) := by
  constructor
  · intro c hc
    have hne : goTrimSpace s ≠ [] := by
      intro hnil
      rw [hnil] at hc
      exact Option.noConfusion hc
    have hh := List.head?_eq_head (l := goTrimSpace s) hne
    rw [hc] at hh
    have hceq : c = (goTrimSpace s).head hne := Option.some.inj hh
    rw [hceq]
    exact List.head_dropWhile_not isGoSpace (goTrimRight s) hne
  · intro c hc
    have hne : goTrimSpace s ≠ [] := by
      intro hnil
      rw [hnil] at hc
      exact Option.noConfusion hc
    obtain ⟨pre, hpr⟩ := List.dropWhile_suffix (l := goTrimRight s) isGoSpace
    have hlast : (goTrimRight s).getLast? = (goTrimSpace s).getLast? := by
      rw [← hpr, List.getLast?_append,
        show List.dropWhile isGoSpace (goTrimRight s) = goTrimSpace s from rfl, hc]
      rfl
    have hne2 : goTrimRight s ≠ [] := by
      intro hnil
      have hzz : goTrimSpace s = [] := by
        unfold goTrimSpace
        rw [hnil]
        rfl
      exact hne hzz
    have hsome := List.getLast?_eq_getLast (goTrimRight s) hne2
    rw [hlast, hc] at hsome
    have hceq : c = (goTrimRight s).getLast hne2 := Option.some.inj hsome
    have hnot := List.rdropWhile_last_not isGoSpace s (by exact hne2)
    rw [hceq]
    exact Bool.not_eq_true _ |>.mp hnot

theorem goTrimSpace_append_newline {n : Str} (h : trimmedStr n) :
    goTrimSpace (n ++ ['\n']) = n := by
  unfold goTrimSpace
  have h1 : goTrimRight (n ++ ['\n']) = goTrimRight n := by
    show List.rdropWhile isGoSpace (n ++ ['\n']) = List.rdropWhile isGoSpace n
    exact List.rdropWhile_concat_pos isGoSpace n '\n' (by decide)
  rw [h1]
  rw [goTrimRight_of_last h.2, goTrimLeft_of_head h.1]

theorem replace2_ne_nil {a b r : Char} {s : Str} (h : s ≠ []) : replace2 a b r s ≠ [] := by
  cases s with
  | nil => exact absurd rfl h
  | cons d t =>
    cases t with
    | nil => simp [replace2]
    | cons e t2 =>
      by_cases hde : d = a ∧ e = b
      · rw [replace2, if_pos hde]; simp
      · rw [replace2, if_neg hde]; simp

theorem head?_replace2 {a b r : Char} {s : Str}
    (hne : ∀ (d : Char) (t : Str), s = d :: t → ¬ d = a) :
    (replace2 a b r s).head? = s.head? := by
  cases s with
  | nil => rfl
  | cons d t =>
    cases t with
    | nil => rfl
    | cons e t2 =>
      have hda : ¬ (d = a ∧ e = b) := fun hp => (hne d (e :: t2) rfl) hp.1
      rw [replace2, if_neg hda]
      rfl

theorem getLast?_replace2 {a b r : Char} {s : Str}
    (hb : ∀ c, s.getLast? = some c → ¬ c = b) :
    (replace2 a b r s).getLast? = s.getLast? := by
  induction s using replace2.induct a b r with
  | case1 => rfl
  | case2 d => rfl
  | case3 d e rest hde ih =>
    rw [replace2, if_pos hde]
    have hrne : rest ≠ [] := by
      intro hnil
      subst hnil
      exact hb e (by simp) hde.2
    have htail : (d :: e :: rest).getLast? = rest.getLast? := by
      cases rest with
      | nil => exact absurd rfl hrne
      | cons x t => simp
    have hbrest : ∀ c, rest.getLast? = some c → ¬ c = b := by
      intro c hcc
      exact hb c (by rw [htail]; exact hcc)
    have hner : replace2 a b r rest ≠ [] := replace2_ne_nil hrne
    have hcons : (r :: replace2 a b r rest).getLast? = (replace2 a b r rest).getLast? := by
      show ([r] ++ replace2 a b r rest).getLast? = (replace2 a b r rest).getLast?
      rw [List.getLast?_append]
      rw [List.getLast?_eq_getLast _ hner]
      rfl
    rw [hcons, ih hbrest, htail]
  | case4 d e rest hde ih =>
    rw [replace2, if_neg hde]
    have htail : (d :: e :: rest).getLast? = (e :: rest).getLast? := by simp
    have hbrest : ∀ c, (e :: rest).getLast? = some c → ¬ c = b := by
      intro c hcc
      exact hb c (by rw [htail]; exact hcc)
    have hner : replace2 a b r (e :: rest) ≠ [] := replace2_ne_nil (by simp)
    have hcons : (d :: replace2 a b r (e :: rest)).getLast? =
        (replace2 a b r (e :: rest)).getLast? := by
      show ([d] ++ replace2 a b r (e :: rest)).getLast? = (replace2 a b r (e :: rest)).getLast?
      rw [List.getLast?_append]
      rw [List.getLast?_eq_getLast _ hner]
      rfl
    rw [hcons, ih hbrest, htail]

theorem trimmedStr_replaceCRLF {s : Str} (h : trimmedStr s) : trimmedStr (replaceCRLF s) := by
  have hh : (replaceCRLF s).head? = s.head? := by
    refine head?_replace2 ?_
    intro d t hdt hda
    have := h.1 d (by rw [hdt]; rfl)
    rw [hda] at this
    exact Bool.noConfusion this
  have hl : (replaceCRLF s).getLast? = s.getLast? := by
    refine getLast?_replace2 ?_
    intro c hc hcb
    have := h.2 c hc
    rw [hcb] at this
    exact Bool.noConfusion this
  exact ⟨fun c hc => h.1 c (hh ▸ hc), fun c hc => h.2 c (hl ▸ hc)⟩

theorem trimmedStr_replaceCR {s : Str} (h : trimmedStr s) : trimmedStr (replaceCR s) := by
  constructor
  · intro c hc
    unfold replaceCR at hc
    rw [List.head?_map] at hc
    cases hhd : s.head? with
    | none => rw [hhd] at hc; exact Option.noConfusion hc
    | some d =>
      rw [hhd] at hc
      have hd := h.1 d hhd
      have hdr : ¬ d = '\r' := by
        intro he
        rw [he] at hd
        exact Bool.noConfusion hd
      simp [hdr] at hc
      rw [← hc]
      exact hd
  · intro c hc
    unfold replaceCR at hc
    rw [List.getLast?_map] at hc
    cases hlt : s.getLast? with
    | none => rw [hlt] at hc; exact Option.noConfusion hc
    | some d =>
      rw [hlt] at hc
      have hd := h.2 d hlt
      have hdr : ¬ d = '\r' := by
        intro he
        rw [he] at hd
        exact Bool.noConfusion hd
      simp [hdr] at hc
      rw [← hc]
      exact hd

theorem strContainsSub_singleton (a : Char) (s : Str) :
    strContainsSub [a] s = true ↔ a ∈ s := by
  rw [strContainsSub_iff]
  constructor
  · rintro ⟨pre, suf, rfl⟩
    simp
  · intro h
    obtain ⟨pre, suf, rfl⟩ := List.append_of_mem h
    exact ⟨pre, suf, by simp⟩

theorem notContains_replaceLitNL (s : Str) :
    strContainsSub ("\\n".data) (replaceLitNL s) = false :=
  notContains_replace2 (by decide) (by decide) s

/-- The normal form every NormalizeDeployKey result is built from: a trimmed
string with no carriage returns whose literal backslash-n occurrences (if
any) coexist with a real newline. -/
theorem normalize_core (value : Str) :
    ∃ n : Str, NormalizeDeployKey value = (if n = [] then [] else n ++ ['\n']) ∧
      trimmedStr n ∧ '\r' ∉ n ∧
      (strContainsSub ("\\n".data) n = true → '\n' ∈ n) := by
  unfold NormalizeDeployKey
  dsimp only
  by_cases hcond : (strContainsSub ("\\n".data) (replaceCR (replaceCRLF (goTrimSpace value))) &&
      !(strContainsSub ("\n".data) (replaceCR (replaceCRLF (goTrimSpace value))))) = true
  · rw [if_pos hcond]
    refine ⟨goTrimSpace (replaceLitNL (replaceCR (replaceCRLF (goTrimSpace value)))),
      rfl, trimmedStr_goTrimSpace _, ?_, ?_⟩
    · intro hm
      rcases mem_replace2 (mem_goTrimSpace hm) with h1 | h2
      · exact not_mem_replaceCR _ h1
      · exact absurd h2 (by decide)
    · intro hl
      exfalso
      obtain ⟨pre, suf, hinf⟩ :=
        goTrimSpace_infix (replaceLitNL (replaceCR (replaceCRLF (goTrimSpace value))))
      have htrue := strContainsSub_of_infix pre suf hinf hl
      have hfalse := notContains_replaceLitNL (replaceCR (replaceCRLF (goTrimSpace value)))
      rw [htrue] at hfalse
      exact Bool.noConfusion hfalse
  · rw [if_neg hcond]
    have htr0 : trimmedStr (replaceCR (replaceCRLF (goTrimSpace value))) :=
      trimmedStr_replaceCR (trimmedStr_replaceCRLF (trimmedStr_goTrimSpace value))
    have hnn : goTrimSpace (replaceCR (replaceCRLF (goTrimSpace value))) =
        replaceCR (replaceCRLF (goTrimSpace value)) := goTrimSpace_of_trimmed htr0
    refine ⟨goTrimSpace (replaceCR (replaceCRLF (goTrimSpace value))),
      rfl, trimmedStr_goTrimSpace _, ?_, ?_⟩
    · intro hm
      exact not_mem_replaceCR _ (mem_goTrimSpace hm)
    · intro hl
      rw [hnn] at hl ⊢
      have hnl : strContainsSub ("\n".data) (replaceCR (replaceCRLF (goTrimSpace value))) = true := by
        by_contra hfalse
        apply hcond
        rw [hl, Bool.eq_false_iff.mpr hfalse]
        rfl
      exact (strContainsSub_singleton '\n' _).mp hnl

/-- C9: NormalizeDeployKey is idempotent, and every non-empty result ends
with exactly one trailing newline (the character before the final newline,
when present, is not itself whitespace, in particular not a newline); the
empty result stays empty. -/
theorem c9_normalize_deploy_key (value : Str) :
    NormalizeDeployKey (NormalizeDeployKey value) = NormalizeDeployKey value ∧
    (NormalizeDeployKey value = [] ∨
      ∃ t : Str, NormalizeDeployKey value = t ++ ['\n'] ∧
        (∀ c, t.getLast? = some c → isGoSpace c = false)) := by
  obtain ⟨n, hEq, htr, hcr, hlit⟩ := normalize_core value
  by_cases hn : n = []
  · rw [hEq, if_pos hn]
    exact ⟨rfl, Or.inl rfl⟩
  · rw [hEq, if_neg hn]
    constructor
    · unfold NormalizeDeployKey
      dsimp only
      rw [goTrimSpace_append_newline htr]
      have hcrlf : replaceCRLF n = n := replace2_of_not_mem hcr
      rw [hcrlf, replaceCR_of_noCR hcr]
      have hcond : (strContainsSub ("\\n".data) n && !(strContainsSub ("\n".data) n)) = false := by
        cases hl : strContainsSub ("\\n".data) n with
        | false => rfl
        | true =>
          have := (strContainsSub_singleton '\n' n).mpr (hlit hl)
          rw [this]
          rfl
      rw [hcond]
      show (if goTrimSpace n = [] then [] else goTrimSpace n ++ ['\n']) = n ++ ['\n']
      rw [goTrimSpace_of_trimmed htr, if_neg hn]
    · exact Or.inr ⟨n, rfl, htr.2⟩

/-! ## App store model (src/internal/api/types.go, src/internal/store/sqlite.go)

The SQLite store is embedded as a list of rows; each SQL UPDATE applies to
every row matching the id and fails with "app not found" when zero rows are
affected, exactly as the Go methods check RowsAffected. -/

structure App where
  id : String
  name : String
  repoURL : String
  repoAuthMethod : String
  branch : String
  composePath : String
  pollInterval : String
  lastSeenCommit : String
  lastSeenCommitMessage : String
  lastSyncedCommit : String
  lastSyncedCommitMessage : String
  lastSyncOutput : String
  lastSyncError : String
  lastSyncAt : Nat
  status : String
deriving DecidableEq, Repr

structure AppCredential where
  appID : String
  deployKeyCiphertext : List Nat
  deployKeyNonce : List Nat
deriving DecidableEq, Repr

structure StoreState where
  apps : List App
  credentials : List AppCredential
deriving DecidableEq, Repr

/-- `SQLiteStore.GetApp`: the row with the given id. -/
def getApp (st : StoreState) (id : String) : Option App :=
  st.apps.find? (fun a => a.id == id)

/-- `SQLiteStore.GetAppCredential`. -/
def getAppCredential (st : StoreState) (id : String) : Option AppCredential :=
  st.credentials.find? (fun c => c.appID == id)

/-- An `UPDATE apps SET … WHERE id = ?`: rewrites every matching row and
fails with "app not found" when zero rows were affected. -/
def updateWhere (st : StoreState) (id : String) (f : App → App) : Except String StoreState :=
  if st.apps.any (fun a => a.id == id) then
    Except.ok { st with apps := st.apps.map (fun a => if a.id == id then f a else a) }
  else Except.error "app not found"

/-- `SQLiteStore.UpdateAppStatus` (sqlite.go): status-only transition,
optionally also setting last_sync_at. -/
def updateAppStatus (st : StoreState) (id status : String) (lastSyncAt : Option Nat) :
    Except String StoreState :=
  match lastSyncAt with
  | none => updateWhere st id (fun a => { a with status := status })
  | some t => updateWhere st id (fun a => { a with status := status, lastSyncAt := t })

/-- `SQLiteStore.UpdateAppSyncResult` (sqlite.go): the terminal write
setting status, last_sync_at, last_synced_commit/message, the transcript
and the error column in one statement. -/
def updateAppSyncResult (st : StoreState) (id status : String) (lastSyncAt : Nat)
    (syncedCommit syncedCommitMessage syncOutput syncError : String) :
    Except String StoreState :=
  updateWhere st id (fun a =>
    { a with
      status := status
      lastSyncAt := lastSyncAt
      lastSyncedCommit := syncedCommit
      lastSyncedCommitMessage := syncedCommitMessage
      lastSyncOutput := syncOutput
      lastSyncError := syncError })

/-- `SQLiteStore.DeleteAppCredential`: no affected-row check. -/
def deleteAppCredential (st : StoreState) (id : String) : StoreState :=
  { st with credentials := st.credentials.filter (fun c => !(c.appID == id)) }

/-- `SQLiteStore.DeleteApp` (sqlite.go): transactional delete of the
credentials row then the app row; "app not found" (with rollback) when the
app row is missing. -/
def deleteApp (st : StoreState) (id : String) : Except String StoreState :=
  if st.apps.any (fun a => a.id == id) then
    Except.ok { apps := st.apps.filter (fun a => !(a.id == id)),
                credentials := st.credentials.filter (fun c => !(c.appID == id)) }
  else Except.error "app not found"

/-- `Registry.Delete` (registry.go): delete the credential row, then the app
row; the Bool reports whether the app row existed. -/
def registryDelete (st : StoreState) (id : String) : StoreState × Bool :=
  let st1 := deleteAppCredential st id
  match deleteApp st1 id with
  | Except.ok st2 => (st2, true)
  | Except.error _ => (st1, false)

/-! ## Reconciler syncApp and the HTTP handlers
(src/internal/controller/reconciler.go, src/internal/controller/handlers.go)

The Apply subprocess outcome (transcript plus optional error message), the
deploy-key load outcome and the clock are inputs of the embedding; the
progress-reporter writes during a force-sync Apply are overwritten by the
terminal write and are not modelled. -/

/-- The commit-hash argument `Reconciler.syncApp` passes to
`Executor.Apply` (reconciler.go): the app's last seen commit. -/
def syncAppApplyCommit (app : App) : String := app.lastSeenCommit

/-- The commit-hash argument `Handler.ForceSyncApp` passes to
`Applier.Apply` (handlers.go): always the empty string. -/
def forceSyncApplyCommit : String := ""

/-- Run a store write whose error the caller ignores (`_ = …` in Go). -/
def ignoringError (st : StoreState) (r : Except String StoreState) : StoreState :=
  match r with
  | Except.ok st' => st'
  | Except.error _ => st

/-- `Reconciler.syncApp` (reconciler.go): mark syncing (error ignored), load
the deploy key (on failure mark error and return), call Apply with
commit = last_seen_commit, then the terminal write: on Apply error keep the
old synced commit/message and store the error text; on success store
last_seen commit/message with an empty error. -/
def syncApp (st : StoreState) (app : App) (keyRes : Except String Unit)
    (applyOutput : String) (applyErr : Option String) (now : Nat) :
    StoreState × Option String :=
  let st1 := ignoringError st (updateAppStatus st app.id "syncing" none)
  match keyRes with
  | Except.error e =>
    let st2 := ignoringError st1 (updateAppStatus st1 app.id "error" none)
    (st2, some ("failed to load app credentials: " ++ e))
  | Except.ok _ =>
    match applyErr with
    | some emsg =>
      let st2 := ignoringError st1 (updateAppSyncResult st1 app.id "error" now
        app.lastSyncedCommit app.lastSyncedCommitMessage applyOutput emsg)
      (st2, some emsg)
    | none =>
      let st2 := ignoringError st1 (updateAppSyncResult st1 app.id "synced" now
        app.lastSeenCommit app.lastSeenCommitMessage applyOutput "")
      (st2, none)

/-- The write `Handler.ForceSyncApp` performs before running Apply
(handlers.go): status syncing with last_sync_at = now, error ignored. -/
def forceSyncPrepare (st : StoreState) (app : App) (now : Nat) : StoreState :=
  ignoringError st (updateAppStatus st app.id "syncing" (some now))

/-- The part of `Handler.ForceSyncApp` after the syncing mark: key load,
Apply (with an empty commit-hash argument), terminal write, HTTP code. -/
def forceSyncFinish (st1 : StoreState) (app : App) (keyRes : Except String Unit)
    (applyOutput : String) (applyErr : Option String) (now : Nat) :
    StoreState × Nat :=
  match keyRes with
  | Except.error _ =>
    let st2 := ignoringError st1 (updateAppStatus st1 app.id "error" none)
    (st2, 500)
  | Except.ok _ =>
    match applyErr with
    | some emsg =>
      let st2 := ignoringError st1 (updateAppSyncResult st1 app.id "error" now
        app.lastSyncedCommit app.lastSyncedCommitMessage applyOutput emsg)
      (st2, 500)
    | none =>
      let st2 := ignoringError st1 (updateAppSyncResult st1 app.id "synced" now
        app.lastSeenCommit app.lastSeenCommitMessage applyOutput "")
      (st2, 200)

/-- `Handler.ForceSyncApp` (handlers.go): 503 without an applier; 404 on a
missing app; 409 without any write while the app's status is syncing;
otherwise mark syncing with last_sync_at = now and proceed to Apply. -/
def forceSyncApp (applierPresent : Bool) (st : StoreState) (id : String)
    (keyRes : Except String Unit) (applyOutput : String) (applyErr : Option String)
    (now : Nat) : StoreState × Nat :=
  if !applierPresent then (st, 503)
  else
    match getApp st id with
    | none => (st, 404)
    | some app =>
      if app.status = "syncing" then (st, 409)
      else forceSyncFinish (forceSyncPrepare st app now) app keyRes applyOutput applyErr now

/-- `Handler.DeleteApp` (handlers.go): 404 on a missing app; with a cleaner
configured, `Runtime.Destroy` runs first and a failure returns 500 with no
row touched; only after a successful teardown (or with no cleaner) does
`Registry.Delete` remove the credential and app rows. The Bool in the
result records whether Destroy was invoked. -/
def deleteAppHandler (cleanerPresent : Bool) (st : StoreState) (id : String)
    (destroyErr : Option String) : StoreState × Nat × Bool :=
  match getApp st id with
  | none => (st, 404, false)
  | some _ =>
    if cleanerPresent then
      match destroyErr with
      | some _ => (st, 500, true)
      | none =>
        match registryDelete st id with
        | (st', true) => (st', 200, true)
        | (st', false) => (st', 404, true)
    else
      match registryDelete st id with
      | (st', true) => (st', 200, false)
      | (st', false) => (st', 404, false)

/-! ### Store lookup/update lemmas -/

theorem find?_map_update (l : List App) (id : String) (f : App → App)
    (hid : ∀ a, (f a).id = a.id) :
    (l.map (fun a => if a.id == id then f a else a)).find? (fun a => a.id == id) =
      (l.find? (fun a => a.id == id)).map f := by
  induction l with
  | nil => rfl
  | cons a t ih =>
    by_cases ha : (a.id == id) = true
    · have hfa : ((f a).id == id) = true := by rw [hid]; exact ha
      simp only [List.map_cons, ha, if_true, List.find?, hfa]
      rfl
    · have hb : (a.id == id) = false := Bool.eq_false_iff.mpr ha
      simp only [List.map_cons, hb, Bool.false_eq_true, if_false, List.find?]
      exact ih

theorem updateWhere_ok_of_getApp {st : StoreState} {id : String} {app : App}
    (h : getApp st id = some app) (f : App → App) :
    updateWhere st id f =
      Except.ok { st with apps := st.apps.map (fun a => if a.id == id then f a else a) } := by
  unfold getApp at h
  obtain ⟨e, hfind⟩ : ∃ e, st.apps.find? (fun a => a.id == id) = some e := ⟨app, h⟩
  have hpe : (e.id == id) = true := by
    have := List.find?_some hfind
    simpa using this
  have hany : st.apps.any (fun a => a.id == id) = true :=
    List.any_eq_true.mpr ⟨e, List.mem_of_find?_eq_some hfind, hpe⟩
  unfold updateWhere
  rw [if_pos hany]

theorem getApp_ignoring_update {st : StoreState} {id : String} {app : App}
    (h : getApp st id = some app) (f : App → App) (hid : ∀ a, (f a).id = a.id) :
    getApp (ignoringError st (updateWhere st id f)) id = some (f app) := by
  rw [updateWhere_ok_of_getApp h f]
  show getApp { st with apps := st.apps.map (fun a => if a.id == id then f a else a) } id =
    some (f app)
  unfold getApp at h ⊢
  simp only
  rw [find?_map_update st.apps id f hid, h]
  rfl

/-! ## Claim C3 -/

/-- C3: for every failed Apply (reconciler path and force-sync path), the
terminal write leaves last_synced_commit and last_synced_commit_message at
their pre-state values, sets status = error, and stores the Apply error
message in last_sync_error — non-empty whenever the subprocess error text
is (and every error the executor produces carries a non-empty message). -/
theorem c3_apply_failure (st : StoreState) (app : App) (out e : String) (now : Nat)
    (happ : getApp st app.id = some app) (hne : e ≠ "") :
    (∃ post, getApp ((syncApp st app (Except.ok ()) out (some e) now).1) app.id = some post ∧
      post.lastSyncedCommit = app.lastSyncedCommit ∧
      post.lastSyncedCommitMessage = app.lastSyncedCommitMessage ∧
      post.status = "error" ∧ post.lastSyncError = e ∧ post.lastSyncError ≠ "") ∧
    (app.status ≠ "syncing" →
      ∃ post,
        getApp ((forceSyncApp true st app.id (Except.ok ()) out (some e) now).1) app.id =
          some post ∧
        post.lastSyncedCommit = app.lastSyncedCommit ∧
        post.lastSyncedCommitMessage = app.lastSyncedCommitMessage ∧
        post.status = "error" ∧ post.lastSyncError = e ∧ post.lastSyncError ≠ "") := by
  have hid1 : ∀ a : App, (({ a with status := "syncing" } : App)).id = a.id := fun _ => rfl
  have hid1t : ∀ t : Nat, ∀ a : App,
      (({ a with status := "syncing", lastSyncAt := t } : App)).id = a.id := fun _ _ => rfl
  constructor
  · unfold syncApp
    have h1 : getApp (ignoringError st (updateAppStatus st app.id "syncing" none)) app.id =
        some { app with status := "syncing" } :=
      getApp_ignoring_update happ _ hid1
    have h2 := getApp_ignoring_update h1
      (fun a => { a with
        status := "error"
        lastSyncAt := now
        lastSyncedCommit := app.lastSyncedCommit
        lastSyncedCommitMessage := app.lastSyncedCommitMessage
        lastSyncOutput := out
        lastSyncError := e }) (fun _ => rfl)
    exact ⟨_, h2, rfl, rfl, rfl, rfl, hne⟩
  · intro hstat
    unfold forceSyncApp
    rw [happ]
    simp only [Bool.not_true, Bool.false_eq_true, if_false, if_neg hstat]
    unfold forceSyncFinish forceSyncPrepare
    have h1 : getApp (ignoringError st (updateAppStatus st app.id "syncing" (some now))) app.id =
        some { app with status := "syncing", lastSyncAt := now } :=
      getApp_ignoring_update happ _ (hid1t now)
    have h2 := getApp_ignoring_update h1
      (fun a => { a with
        status := "error"
        lastSyncAt := now
        lastSyncedCommit := app.lastSyncedCommit
        lastSyncedCommitMessage := app.lastSyncedCommitMessage
        lastSyncOutput := out
        lastSyncError := e }) (fun _ => rfl)
    exact ⟨_, h2, rfl, rfl, rfl, rfl, hne⟩

/-! ## Claim C2 -/

/-- C2 (amended): on the reconciler path a successful Apply with commit
argument C = last_seen_commit leaves last_synced_commit = C and
last_sync_error = "". The force-sync path also ends with status synced,
last_synced_commit = last_seen_commit (pre-state) and last_sync_error = "",
but it invokes Apply with an EMPTY commit-hash argument, so its post-state
last_synced_commit is not the commit argument whenever last_seen_commit is
non-empty. -/
theorem c2_apply_success (st : StoreState) (app : App) (out : String) (now : Nat)
    (happ : getApp st app.id = some app) :
    (∃ post, getApp ((syncApp st app (Except.ok ()) out none now).1) app.id = some post ∧
      post.lastSyncedCommit = syncAppApplyCommit app ∧
      post.lastSyncedCommitMessage = app.lastSeenCommitMessage ∧
      post.status = "synced" ∧ post.lastSyncError = "") ∧
    (app.status ≠ "syncing" →
      ∃ post,
        getApp ((forceSyncApp true st app.id (Except.ok ()) out none now).1) app.id =
          some post ∧
        post.lastSyncedCommit = app.lastSeenCommit ∧
        post.status = "synced" ∧ post.lastSyncError = "") := by
  constructor
  · unfold syncApp
    have h1 : getApp (ignoringError st (updateAppStatus st app.id "syncing" none)) app.id =
        some { app with status := "syncing" } :=
      getApp_ignoring_update happ _ (fun _ => rfl)
    have h2 := getApp_ignoring_update h1
      (fun a => { a with
        status := "synced"
        lastSyncAt := now
        lastSyncedCommit := app.lastSeenCommit
        lastSyncedCommitMessage := app.lastSeenCommitMessage
        lastSyncOutput := out
        lastSyncError := "" }) (fun _ => rfl)
    exact ⟨_, h2, rfl, rfl, rfl, rfl⟩
  · intro hstat
    unfold forceSyncApp
    rw [happ]
    simp only [Bool.not_true, Bool.false_eq_true, if_false, if_neg hstat]
    unfold forceSyncFinish forceSyncPrepare
    have h1 : getApp (ignoringError st (updateAppStatus st app.id "syncing" (some now))) app.id =
        some { app with status := "syncing", lastSyncAt := now } :=
      getApp_ignoring_update happ _ (fun _ => rfl)
    have h2 := getApp_ignoring_update h1
      (fun a => { a with
        status := "synced"
        lastSyncAt := now
        lastSyncedCommit := app.lastSeenCommit
        lastSyncedCommitMessage := app.lastSeenCommitMessage
        lastSyncOutput := out
        lastSyncError := "" }) (fun _ => rfl)
    exact ⟨_, h2, rfl, rfl, rfl⟩

/-- Fixture: a registered public app whose watcher has already seen a new
commit while the last successful apply was at an older one. -/
def demoApp : App :=
  { id := "a1"
    name := "demo"
    repoURL := "https://host/x/y"
    repoAuthMethod := "public"
    branch := "main"
    composePath := "compose.yaml"
    pollInterval := "30s"
    lastSeenCommit := "def456"
    lastSeenCommitMessage := "new commit"
    lastSyncedCommit := "abc123"
    lastSyncedCommitMessage := "old commit"
    lastSyncOutput := ""
    lastSyncError := ""
    lastSyncAt := 0
    status := "pending" }

def demoStore : StoreState := { apps := [demoApp], credentials := [] }

/-- C2 counterexample to the claim as stated: the force-sync path's Apply
invocation has commit argument "" (handlers.go passes an empty commit hash),
yet the post-state of a successful force-sync has
last_synced_commit = "def456" ≠ "". -/
theorem c2_counterexample :
    forceSyncApplyCommit = "" ∧
    ∃ post,
      getApp ((forceSyncApp true demoStore "a1" (Except.ok ()) "out" none 7).1) "a1" =
        some post ∧
      post.lastSyncedCommit = "def456" ∧ ¬ post.lastSyncedCommit = forceSyncApplyCommit := by
  refine ⟨rfl, ?_⟩
  refine ⟨_, rfl, ?_, ?_⟩ <;> decide

theorem c2_apply_success_witness :
    getApp demoStore demoApp.id = some demoApp ∧
    ((∃ post, getApp ((syncApp demoStore demoApp (Except.ok ()) "out" none 7).1) demoApp.id =
        some post ∧
      post.lastSyncedCommit = syncAppApplyCommit demoApp ∧
      post.lastSyncedCommitMessage = demoApp.lastSeenCommitMessage ∧
      post.status = "synced" ∧ post.lastSyncError = "") ∧
    (demoApp.status ≠ "syncing" →
      ∃ post,
        getApp ((forceSyncApp true demoStore demoApp.id (Except.ok ()) "out" none 7).1)
          demoApp.id = some post ∧
        post.lastSyncedCommit = demoApp.lastSeenCommit ∧
        post.status = "synced" ∧ post.lastSyncError = "")) :=
  ⟨by decide, c2_apply_success demoStore demoApp "out" 7 (by decide)⟩

theorem c3_apply_failure_witness :
    (getApp demoStore demoApp.id = some demoApp ∧ "compose up failed" ≠ "") ∧
    ((∃ post, getApp ((syncApp demoStore demoApp (Except.ok ()) "out"
        (some "compose up failed") 7).1) demoApp.id = some post ∧
      post.lastSyncedCommit = demoApp.lastSyncedCommit ∧
      post.lastSyncedCommitMessage = demoApp.lastSyncedCommitMessage ∧
      post.status = "error" ∧ post.lastSyncError = "compose up failed" ∧
      post.lastSyncError ≠ "") ∧
    (demoApp.status ≠ "syncing" →
      ∃ post,
        getApp ((forceSyncApp true demoStore demoApp.id (Except.ok ()) "out"
            (some "compose up failed") 7).1) demoApp.id = some post ∧
        post.lastSyncedCommit = demoApp.lastSyncedCommit ∧
        post.lastSyncedCommitMessage = demoApp.lastSyncedCommitMessage ∧
        post.status = "error" ∧ post.lastSyncError = "compose up failed" ∧
        post.lastSyncError ≠ "")) :=
  ⟨⟨by decide, by decide⟩,
    c3_apply_failure demoStore demoApp "out" "compose up failed" 7 (by decide) (by decide)⟩

/-! ## Claim C5 -/

/-- C5: a force-sync request for an app whose status is syncing is rejected
with 409 and performs no store write; an accepted request first records
status syncing with last_sync_at = now and only then runs the Apply phase
on that updated state. -/
theorem c5_force_sync_conflict (st : StoreState) (id : String) (app : App)
    (keyRes : Except String Unit) (out : String) (err : Option String) (now : Nat)
    (happ : getApp st id = some app) :
    (app.status = "syncing" → forceSyncApp true st id keyRes out err now = (st, 409)) ∧
    (app.status ≠ "syncing" →
      forceSyncApp true st id keyRes out err now =
        forceSyncFinish (forceSyncPrepare st app now) app keyRes out err now ∧
      ∃ mid, getApp (forceSyncPrepare st app now) id = some mid ∧
        mid.status = "syncing" ∧ mid.lastSyncAt = now) := by
  have hid : app.id = id := by
    have := List.find?_some happ
    simpa using this
  constructor
  · intro hs
    unfold forceSyncApp
    rw [happ]
    simp only [Bool.not_true, Bool.false_eq_true, if_false, if_pos hs]
  · intro hs
    constructor
    · unfold forceSyncApp
      rw [happ]
      simp only [Bool.not_true, Bool.false_eq_true, if_false, if_neg hs]
    · have h1 : getApp (forceSyncPrepare st app now) app.id =
          some { app with status := "syncing", lastSyncAt := now } :=
        getApp_ignoring_update (by rw [hid]; exact happ) _ (fun _ => rfl)
      rw [hid] at h1
      exact ⟨_, h1, rfl, rfl⟩

theorem c5_force_sync_conflict_witness :
    getApp demoStore "a1" = some demoApp ∧
    ((demoApp.status = "syncing" →
      forceSyncApp true demoStore "a1" (Except.ok ()) "out" none 7 = (demoStore, 409)) ∧
    (demoApp.status ≠ "syncing" →
      forceSyncApp true demoStore "a1" (Except.ok ()) "out" none 7 =
        forceSyncFinish (forceSyncPrepare demoStore demoApp 7) demoApp
          (Except.ok ()) "out" none 7 ∧
      ∃ mid, getApp (forceSyncPrepare demoStore demoApp 7) "a1" = some mid ∧
        mid.status = "syncing" ∧ mid.lastSyncAt = 7)) :=
  ⟨by decide, c5_force_sync_conflict demoStore "a1" demoApp (Except.ok ()) "out" none 7
    (by decide)⟩

/-! ## Claim C4 -/

/-- C4: deleting an existing app invokes runtime teardown first; a Destroy
failure yields 500 with the store untouched (the app row survives), and
only after a successful Destroy are the app row and its credentials removed
with a 200 response. -/
theorem c4_delete_app (st : StoreState) (id : String) (app : App)
    (happ : getApp st id = some app) :
    (∀ e, deleteAppHandler true st id (some e) = (st, 500, true)) ∧
    ((deleteAppHandler true st id none).2.1 = 200 ∧
     (deleteAppHandler true st id none).2.2 = true ∧
     getApp ((deleteAppHandler true st id none).1) id = none ∧
     getAppCredential ((deleteAppHandler true st id none).1) id = none) := by
  have hpe : (app.id == id) = true := by
    have := List.find?_some happ
    simpa using this
  have hany : ((deleteAppCredential st id).apps.any (fun a => a.id == id)) = true := by
    show (st.apps.any (fun a => a.id == id)) = true
    exact List.any_eq_true.mpr ⟨app, List.mem_of_find?_eq_some happ, by simpa using hpe⟩
  have hdel : registryDelete st id =
      ({ apps := (deleteAppCredential st id).apps.filter (fun a => !(a.id == id))
         credentials :=
           (deleteAppCredential st id).credentials.filter (fun c => !(c.appID == id)) },
        true) := by
    unfold registryDelete deleteApp
    dsimp only
    rw [if_pos hany]
  constructor
  · intro e
    unfold deleteAppHandler
    rw [happ]
    rfl
  · unfold deleteAppHandler
    rw [happ]
    dsimp only
    rw [hdel]
    refine ⟨rfl, rfl, ?_, ?_⟩
    · show List.find? (fun a => a.id == id)
        ((deleteAppCredential st id).apps.filter (fun a => !(a.id == id))) = none
      rw [List.find?_eq_none]
      intro x hx hpx
      have hmem := (List.mem_filter.mp hx).2
      rw [hpx] at hmem
      exact Bool.noConfusion hmem
    · show List.find? (fun c => c.appID == id)
        ((deleteAppCredential st id).credentials.filter (fun c => !(c.appID == id))) = none
      rw [List.find?_eq_none]
      intro x hx hpx
      have hmem := (List.mem_filter.mp hx).2
      rw [hpx] at hmem
      exact Bool.noConfusion hmem

theorem c4_delete_app_witness :
    getApp demoStore "a1" = some demoApp ∧
    ((∀ e, deleteAppHandler true demoStore "a1" (some e) = (demoStore, 500, true)) ∧
    ((deleteAppHandler true demoStore "a1" none).2.1 = 200 ∧
     (deleteAppHandler true demoStore "a1" none).2.2 = true ∧
     getApp ((deleteAppHandler true demoStore "a1" none).1) "a1" = none ∧
     getAppCredential ((deleteAppHandler true demoStore "a1" none).1) "a1" = none)) :=
  ⟨by decide, c4_delete_app demoStore "a1" demoApp (by decide)⟩

/-! ## Claim C1: at-most-one active Apply per app

The HTTP server is handler-per-request, so two POST sync requests for the
same app run concurrently. Each handler executes the ForceSyncApp steps of
handlers.go as separate, individually-serialized database accesses: the
Get + `status == "syncing"` test, the UpdateStatus("syncing") write, and
(after Apply returns) the terminal write. The shared state is the app's
status column; nothing makes the test-and-set atomic. -/

inductive FsPc
  | start
  | checked
  | applying
  | done
  | rejected
deriving DecidableEq, Repr

/-- The status column of one app plus the program counters of two
concurrent force-sync handler executions for it. -/
structure ConcState where
  status : String
  a : FsPc
  b : FsPc
deriving DecidableEq, Repr

/-- One interleaved step of two concurrent `ForceSyncApp` executions
(handlers.go): `check…` is the Get plus the 409 status test, `mark…` the
UpdateStatus-to-syncing write that precedes Apply, `finish…` the terminal
write after Apply. Between `mark` and `finish` the actor is executing
Apply for the app. -/
inductive FsStep : ConcState → ConcState → Prop
  | checkRejA {s : ConcState} : s.a = FsPc.start → s.status = "syncing" →
      FsStep s { s with a := FsPc.rejected }
  | checkOkA {s : ConcState} : s.a = FsPc.start → s.status ≠ "syncing" →
      FsStep s { s with a := FsPc.checked }
  | markA {s : ConcState} : s.a = FsPc.checked →
      FsStep s { s with status := "syncing", a := FsPc.applying }
  | finishA {s : ConcState} : s.a = FsPc.applying →
      FsStep s { s with status := "synced", a := FsPc.done }
  | checkRejB {s : ConcState} : s.b = FsPc.start → s.status = "syncing" →
      FsStep s { s with b := FsPc.rejected }
  | checkOkB {s : ConcState} : s.b = FsPc.start → s.status ≠ "syncing" →
      FsStep s { s with b := FsPc.checked }
  | markB {s : ConcState} : s.b = FsPc.checked →
      FsStep s { s with status := "syncing", b := FsPc.applying }
  | finishB {s : ConcState} : s.b = FsPc.applying →
      FsStep s { s with status := "synced", b := FsPc.done }

/-- Initial state: one app not currently syncing, two fresh requests. -/
def fsInit : ConcState := { status := "pending", a := FsPc.start, b := FsPc.start }

/-- C1 is violated by the code: from an app in status pending, two
concurrent force-sync requests can both pass the `status == "syncing"`
check before either performs the UpdateStatus write, after which both are
executing Apply for the same app at the same time. The trace: A checks, B
checks, A marks syncing and enters Apply, B (already past its check) marks
and enters Apply. -/
theorem c1_two_concurrent_applies :
    ∃ s : ConcState, Relation.ReflTransGen FsStep fsInit s ∧
      s.a = FsPc.applying ∧ s.b = FsPc.applying := by
  refine ⟨{ status := "syncing", a := FsPc.applying, b := FsPc.applying }, ?_, rfl, rfl⟩
  have t1 : FsStep fsInit ⟨"pending", FsPc.checked, FsPc.start⟩ :=
    FsStep.checkOkA rfl (by decide)
  have t2 : FsStep ⟨"pending", FsPc.checked, FsPc.start⟩
      ⟨"pending", FsPc.checked, FsPc.checked⟩ :=
    FsStep.checkOkB rfl (by decide)
  have t3 : FsStep ⟨"pending", FsPc.checked, FsPc.checked⟩
      ⟨"syncing", FsPc.applying, FsPc.checked⟩ :=
    FsStep.markA rfl
  have t4 : FsStep ⟨"syncing", FsPc.applying, FsPc.checked⟩
      ⟨"syncing", FsPc.applying, FsPc.applying⟩ :=
    FsStep.markB rfl
  exact Relation.ReflTransGen.head t1 (Relation.ReflTransGen.head t2
    (Relation.ReflTransGen.head t3 (Relation.ReflTransGen.single t4)))

/-! ## Credential vault (src/unnamed/part_006, package credentials)

Modelled from the spec: the AEAD inside `Service.Encrypt` / `Service.Decrypt`
is Go's `cipher.NewGCM` over AES-256 — "AES-GCM-like: 32-byte key, 96-bit
random nonce per message, 128-bit tag" (spec 4.1). The Go AEAD lives in the
standard library, outside this repository, so GCM is embedded here over an
abstract 16-byte block cipher `E` (whose output is normalized to 16 bytes);
bytes are naturals, the random nonce is an explicit argument. -/

abbrev Bytes := List Nat

/-- Fixed-width big-endian byte encoding of a natural. -/
def natToBytesBE (w : Nat) (n : Nat) : Bytes :=
  (List.range w).map (fun i => (n >>> (8 * (w - 1 - i))) % 256)

/-- Big-endian byte decoding. -/
def bytesToNatBE (bs : Bytes) : Nat :=
  bs.foldl (fun acc b => acc * 256 + b) 0

/-- Normalize a block-cipher output to exactly 16 bytes. -/
def takeExact16 (bs : Bytes) : Bytes := (bs ++ List.replicate 16 0).take 16

/-- GCM's GF(2^128) multiplication (bit-reflected basis, reduction
polynomial x^128 + x^7 + x^2 + x + 1). -/
def gfMul (x y : Nat) : Nat :=
  (((List.range 128).foldl (fun (st : Nat × Nat) (i : Nat) =>
    let z := if Nat.testBit x (127 - i) then st.1 ^^^ st.2 else st.1
    let v := if st.2 % 2 = 1 then (st.2 >>> 1) ^^^ 0xE1000000000000000000000000000000
             else st.2 >>> 1
    (z, v)) (0, y)).1)

/-- GHASH accumulation over 128-bit blocks. -/
def ghashBlocks (h : Nat) (blocks : List Nat) : Nat :=
  blocks.foldl (fun y x => gfMul (y ^^^ x) h) 0

/-- Split bytes into 16-byte blocks (zero-padded), fuel-indexed so the
definition is structural. -/
def chunk16 : Nat → Bytes → List Nat
  | 0, _ => []
  | _, [] => []
  | fuel + 1, bs => bytesToNatBE (takeExact16 (bs.take 16)) :: chunk16 fuel (bs.drop 16)

def toBlocks (bs : Bytes) : List Nat := chunk16 bs.length bs

/-- The CTR keystream of GCM: E at nonce‖counter for counters 2, 3, …
(counter 1 is reserved for the tag mask), truncated to n bytes. -/
def gcmKeyStream (E : Bytes → Bytes → Bytes) (key nonce : Bytes) (n : Nat) : Bytes :=
  (((List.range ((n + 15) / 16)).map
    (fun i => takeExact16 (E key (nonce ++ natToBytesBE 4 (i + 2))))).flatten).take n

/-- The 16-byte GCM tag of a ciphertext: GHASH (with H = E key 0¹⁶) over
the ciphertext blocks and the length block, masked with E at nonce‖1. -/
def gcmTag (E : Bytes → Bytes → Bytes) (key nonce ct : Bytes) : Bytes :=
  let h := bytesToNatBE (takeExact16 (E key (List.replicate 16 0)))
  let lenBlock := bytesToNatBE (natToBytesBE 8 0 ++ natToBytesBE 8 (8 * ct.length))
  let s := ghashBlocks h (toBlocks ct ++ [lenBlock])
  let mask := bytesToNatBE (takeExact16 (E key (nonce ++ natToBytesBE 4 1)))
  natToBytesBE 16 (s ^^^ mask)

/-- `gcm.Seal`: ciphertext = plaintext ⊕ keystream, followed by the tag. -/
def gcmSeal (E : Bytes → Bytes → Bytes) (key nonce pt : Bytes) : Bytes :=
  let ct := List.zipWith Nat.xor pt (gcmKeyStream E key nonce pt.length)
  ct ++ gcmTag E key nonce ct

/-- `gcm.Open`: check the nonce size and the minimum length, split off the
16-byte tag, recompute and compare it, and strip the keystream. -/
def gcmOpen (E : Bytes → Bytes → Bytes) (key nonce data : Bytes) : Except String Bytes :=
  if nonce.length ≠ 12 then Except.error "cipher: incorrect nonce length given to GCM"
  else if data.length < 16 then Except.error "cipher: message authentication failed"
  else
    let ct := data.take (data.length - 16)
    let tag := data.drop (data.length - 16)
    if gcmTag E key nonce ct == tag then
      Except.ok (List.zipWith Nat.xor ct (gcmKeyStream E key nonce ct.length))
    else Except.error "cipher: message authentication failed"

/-- `Service.Encrypt` (part_006): seal the plaintext under a fresh random
nonce (explicit here) and return (ciphertext, nonce). -/
def Service.Encrypt (E : Bytes → Bytes → Bytes) (key nonce pt : Bytes) : Bytes × Bytes :=
  (gcmSeal E key nonce pt, nonce)

/-- `Service.Decrypt` (part_006): open (ciphertext, nonce); failures are
wrapped as "failed decrypting credential: …". -/
def Service.Decrypt (E : Bytes → Bytes → Bytes) (key ciphertext nonce : Bytes) :
    Except String Bytes :=
  match gcmOpen E key nonce ciphertext with
  | Except.ok pt => Except.ok pt
  | Except.error e => Except.error ("failed decrypting credential: " ++ e)

/-! ### GCM correctness lemmas -/

theorem length_takeExact16 (bs : Bytes) : (takeExact16 bs).length = 16 := by
  unfold takeExact16
  rw [List.length_take, List.length_append, List.length_replicate]
  omega

theorem length_gcmKeyStream (E : Bytes → Bytes → Bytes) (key nonce : Bytes) (n : Nat) :
    (gcmKeyStream E key nonce n).length = n := by
  unfold gcmKeyStream
  rw [List.length_take, List.length_flatten, List.map_map]
  have he : List.map
      (List.length ∘ fun i => takeExact16 (E key (nonce ++ natToBytesBE 4 (i + 2))))
      (List.range ((n + 15) / 16)) =
      List.map (fun _ => 16) (List.range ((n + 15) / 16)) :=
    List.map_congr_left (fun i _ => length_takeExact16 _)
  rw [he, List.map_const', List.sum_replicate, List.length_range, smul_eq_mul]
  omega

theorem length_natToBytesBE (w n : Nat) : (natToBytesBE w n).length = w := by
  unfold natToBytesBE
  rw [List.length_map, List.length_range]

theorem zipWith_xor_cancel {xs ks : Bytes} (h : ks.length = xs.length) :
    List.zipWith Nat.xor (List.zipWith Nat.xor xs ks) ks = xs := by
  induction xs generalizing ks with
  | nil => cases ks <;> rfl
  | cons x xt ih =>
    cases ks with
    | nil => simp at h
    | cons k kt =>
      simp only [List.zipWith_cons_cons, List.cons.injEq]
      constructor
      · show x ^^^ k ^^^ k = x
        rw [Nat.xor_assoc, Nat.xor_self, Nat.xor_zero]
      · exact ih (by simpa using h)

theorem length_zipWith_xor (xs ks : Bytes) :
    (List.zipWith Nat.xor xs ks).length = min xs.length ks.length := by
  simp

theorem gcmSeal_length (E : Bytes → Bytes → Bytes) (key nonce pt : Bytes) :
    (gcmSeal E key nonce pt).length = pt.length + 16 := by
  unfold gcmSeal gcmTag
  rw [List.length_append, length_zipWith_xor, length_gcmKeyStream, length_natToBytesBE]
  omega

theorem gcmOpen_gcmSeal (E : Bytes → Bytes → Bytes) (key nonce pt : Bytes)
    (hnonce : nonce.length = 12) :
    gcmOpen E key nonce (gcmSeal E key nonce pt) = Except.ok pt := by
  have hct : (List.zipWith Nat.xor pt (gcmKeyStream E key nonce pt.length)).length =
      pt.length := by
    rw [length_zipWith_xor, length_gcmKeyStream]
    omega
  have hlen := gcmSeal_length E key nonce pt
  unfold gcmOpen
  rw [if_neg (by omega), if_neg (by omega)]
  have htagl : (gcmTag E key nonce
      (List.zipWith Nat.xor pt (gcmKeyStream E key nonce pt.length))).length = 16 := by
    unfold gcmTag
    rw [length_natToBytesBE]
  have hsplit : (gcmSeal E key nonce pt).length - 16 =
      (List.zipWith Nat.xor pt (gcmKeyStream E key nonce pt.length)).length := by
    omega
  show (if _ = _ then _ else _) = _
  rw [hsplit]
  unfold gcmSeal
  rw [List.take_left, List.drop_left]
  rw [if_pos (by exact beq_self_eq_true _)]
  rw [hct]
  rw [zipWith_xor_cancel (by rw [length_gcmKeyStream])]

theorem gcmOpen_inversion (E : Bytes → Bytes → Bytes) (key nonce data p : Bytes)
    (h : gcmOpen E key nonce data = Except.ok p) :
    data = gcmSeal E key nonce p := by
  unfold gcmOpen at h
  by_cases h12 : nonce.length ≠ 12
  · rw [if_pos h12] at h
    exact Except.noConfusion h
  rw [if_neg h12] at h
  by_cases hshort : data.length < 16
  · rw [if_pos hshort] at h
    exact Except.noConfusion h
  rw [if_neg hshort] at h
  by_cases htag : (gcmTag E key nonce (data.take (data.length - 16)) ==
      data.drop (data.length - 16)) = true
  · rw [if_pos htag] at h
    have hp : p = List.zipWith Nat.xor (data.take (data.length - 16))
        (gcmKeyStream E key nonce (data.take (data.length - 16)).length) :=
      (Except.ok.inj h).symm
    have hctlen : (data.take (data.length - 16)).length = data.length - 16 := by
      rw [List.length_take]
      omega
    have hplen : p.length = data.length - 16 := by
      rw [hp, length_zipWith_xor, length_gcmKeyStream]
      omega
    have hks : (gcmKeyStream E key nonce p.length).length =
        (data.take (data.length - 16)).length := by
      rw [length_gcmKeyStream, hctlen, hplen]
    have hkseq : gcmKeyStream E key nonce p.length =
        gcmKeyStream E key nonce (data.take (data.length - 16)).length := by
      rw [hctlen, hplen]
    have hback : List.zipWith Nat.xor p (gcmKeyStream E key nonce p.length) =
        data.take (data.length - 16) := by
      rw [hkseq, hp]
      exact zipWith_xor_cancel (by rw [length_gcmKeyStream])
    have htageq : gcmTag E key nonce (data.take (data.length - 16)) =
        data.drop (data.length - 16) := beq_iff_eq.mp htag
    show data = List.zipWith Nat.xor p (gcmKeyStream E key nonce p.length) ++
      gcmTag E key nonce (List.zipWith Nat.xor p (gcmKeyStream E key nonce p.length))
    rw [hback, htageq]
    exact (List.take_append_drop (data.length - 16) data).symm
  · rw [if_neg htag] at h
    exact Except.noConfusion h

/-! ## Claim C7 -/

/-- C7: for every plaintext and valid 32-byte key with a 96-bit nonce, the
credential service round-trips: Decrypt(Encrypt(P)) = P. Moreover Decrypt
returns a plaintext only for inputs that are exactly an authentic sealing
under that key and nonce, so a tampered ciphertext — anything that is not
such a sealing — fails with an authentication error instead of returning a
plaintext (decryption under a wrong nonce likewise succeeds only if the
input happens to be an authentic sealing under that nonce). -/
theorem c7_encrypt_decrypt_roundtrip (E : Bytes → Bytes → Bytes) (key nonce pt : Bytes)
    (_hkey : key.length = 32) (hnonce : nonce.length = 12) :
    Service.Decrypt E key (Service.Encrypt E key nonce pt).1
      (Service.Encrypt E key nonce pt).2 = Except.ok pt ∧
    (∀ data p, Service.Decrypt E key data nonce = Except.ok p →
      data = gcmSeal E key nonce p) := by
  constructor
  · show Service.Decrypt E key (gcmSeal E key nonce pt) nonce = Except.ok pt
    unfold Service.Decrypt
    rw [gcmOpen_gcmSeal E key nonce pt hnonce]
  · intro data p h
    unfold Service.Decrypt at h
    cases hopen : gcmOpen E key nonce data with
    | ok q =>
      rw [hopen] at h
      dsimp only at h
      cases h
      exact gcmOpen_inversion E key nonce data p hopen
    | error e =>
      rw [hopen] at h
      exact Except.noConfusion h

/-- A degenerate but well-typed 16-byte block cipher used to instantiate
the abstract E in concrete checks. -/
def xorBlockCipher : Bytes → Bytes → Bytes := fun _ b => b.map (fun x => x ^^^ 255)

theorem c7_encrypt_decrypt_roundtrip_witness :
    ((List.replicate 32 0 : Bytes).length = 32 ∧
     (List.replicate 12 0 : Bytes).length = 12) ∧
    (Service.Decrypt xorBlockCipher (List.replicate 32 0)
        (Service.Encrypt xorBlockCipher (List.replicate 32 0)
          (List.replicate 12 0) [1, 2, 3]).1
        (Service.Encrypt xorBlockCipher (List.replicate 32 0)
          (List.replicate 12 0) [1, 2, 3]).2 = Except.ok [1, 2, 3] ∧
     (∀ data p, Service.Decrypt xorBlockCipher (List.replicate 32 0) data
          (List.replicate 12 0) = Except.ok p →
        data = gcmSeal xorBlockCipher (List.replicate 32 0) (List.replicate 12 0) p)) :=
  ⟨⟨by decide, by decide⟩,
    c7_encrypt_decrypt_roundtrip xorBlockCipher (List.replicate 32 0) (List.replicate 12 0)
      [1, 2, 3] (by decide) (by decide)⟩

set_option maxRecDepth 8000 in
/-- A concretely tampered ciphertext (first byte flipped) is rejected with
the authentication error. -/
theorem tampered_ciphertext_fails :
    Service.Decrypt xorBlockCipher (List.replicate 32 0)
      (List.modifyHead (fun x => x ^^^ 1)
        (gcmSeal xorBlockCipher (List.replicate 32 0) (List.replicate 12 0) [1, 2, 3]))
      (List.replicate 12 0) =
    Except.error "failed decrypting credential: cipher: message authentication failed" := by
  rfl

set_option maxRecDepth 8000 in
/-- Decrypting an authentic ciphertext under a different nonce is rejected
with the authentication error. -/
theorem wrong_nonce_fails :
    Service.Decrypt xorBlockCipher (List.replicate 32 0)
      (gcmSeal xorBlockCipher (List.replicate 32 0) (List.replicate 12 0) [1, 2, 3])
      (List.replicate 11 0 ++ [1]) =
    Except.error "failed decrypting credential: cipher: message authentication failed" := by
  rfl
